import Mathlib

/-
  Verification development for MBSS (Beat Saber version-history builder).

  The Rust sources (src/main.rs, src/utils.rs, src/structs.rs) drive a
  git-backed store: for an ordered manifest of semantic versions it builds,
  per version, a snapshot commit chained to the previously processed
  version, keeps a `version/<semver>` branch per version, a movable
  `versions/latest` branch, and optionally mirrors branches to a remote.

  Shallow embedding conventions:
  - git commit ids are `Nat`, allocated by a counter (`St.nextId`); the
    commit object store is an association list `St.commits`.
  - branch pointers (local and remote-tracking) are partial maps
    `BranchName → Option Nat`.  `fetch_remote_branches` is modelled as the
    identity: the remote-tracking refs `origin/<b>` consulted by
    `branch_exists_on_remote` / `update_local_branch` are `St.remote`
    directly (the pass fetches them at its start, main.rs:170).
  - the filesystem caches consulted by utils.rs (`downloads/<semver>`,
    `stripped/<semver>`) are the lists `St.downloads` / `St.stripped`.
  - invocations of the external downloader / stripper subprocesses are
    recorded in `St.fetchLog` / `St.stripLog`; their exit status comes from
    the oracles `Cfg.fetchOk` / `Cfg.transformOk`.  Push success per branch
    comes from `Cfg.pushOk`.
  - environment variables STEAM_USERNAME / STEAM_PASSWORD are
    `Cfg.steamUsername` / `Cfg.steamPassword`; the compile-time `stripping`
    cargo feature is `Cfg.stripping`; presence of the `origin` remote is
    `Cfg.hasRemote`.
  - fallible Rust functions returning `Result<T>` while mutating the repo
    in place become Lean functions `... → St → St × Except MbssError T`:
    the state component carries all mutations performed up to the point of
    failure, exactly as the in-place git mutations survive an early return.
  - `peel_to_commit` on a branch yields the branch's target id directly,
    and `find_commit` on an id the pass itself recorded is modelled as
    total: in the source these only fail on a corrupted object store,
    which the spec classifies as fatal store malformation out of scope.
-/

set_option maxHeartbeats 1000000

namespace MBSS

/-- Semantic version identifier (structs.rs uses `semver::Version`; the
manifest versions carry numeric major.minor.patch components). -/
structure SemVer where
  major : Nat
  minor : Nat
  patch : Nat
deriving DecidableEq, Repr

/-- Strict semantic-version precedence on numeric versions
(lexicographic on major, minor, patch). -/
def semLt (a b : SemVer) : Bool :=
  if a.major ≠ b.major then decide (a.major < b.major)
  else if a.minor ≠ b.minor then decide (a.minor < b.minor)
  else decide (a.patch < b.patch)

/-- Branch names used by the pass: `version/<semver>` (main.rs:173,221)
and `versions/latest` (main.rs:448,453).  Keying branches by this
inductive is faithful to the string names because semver rendering is
injective and `get_existing_versions` (main.rs:361-376) parses exactly
the `version/` prefix back. -/
inductive BranchName where
  | version (v : SemVer)
  | latest
deriving DecidableEq, Repr

/-- A commit object: parent ids plus the snapshot content, identified by
the version whose files (and version.txt marker) were committed. -/
structure CommitData where
  parents : List Nat
  tree : SemVer
deriving DecidableEq, Repr

/-- Environment variables whose absence `download_version`
(utils.rs:251,253) turns into a configuration error. -/
inductive ConfigVar where
  | steamUsername
  | steamPassword
deriving DecidableEq, Repr

/-- Error values of the embedded functions, mirroring the `anyhow` error
cases the source can produce on the modelled paths. -/
inductive MbssError where
  | envMissing (c : ConfigVar)
  | fetchFailed (v : SemVer)
  | transformFailed (v : SemVer)
  | branchNotFound (b : BranchName)
  | pushFailed (b : BranchName)
deriving DecidableEq, Repr

/-- Mutable world state: the git store plus the filesystem caches and the
subprocess invocation logs. -/
structure St where
  nextId : Nat
  commits : List (Nat × CommitData)
  locals : BranchName → Option Nat
  remote : BranchName → Option Nat
  downloads : List SemVer
  stripped : List SemVer
  fetchLog : List SemVer
  stripLog : List SemVer

/-- Read-only configuration: environment variables, compile-time feature
flags, remote presence, and the success oracles of the external
collaborators. -/
structure Cfg where
  steamUsername : Option String
  steamPassword : Option String
  stripping : Bool
  hasRemote : Bool
  fetchOk : SemVer → Bool
  transformOk : SemVer → Bool
  pushOk : BranchName → Bool

/-- Pointwise update of a branch map (git `branch`/`set_target`). -/
def setB (m : BranchName → Option Nat) (b : BranchName) (c : Nat) :
    BranchName → Option Nat :=
  fun x => if x = b then some c else m x

/-- Pointwise removal of a branch (git `branch.delete`). -/
def delB (m : BranchName → Option Nat) (b : BranchName) :
    BranchName → Option Nat :=
  fun x => if x = b then none else m x

/-- Lookup in the commit object store. -/
def findC : List (Nat × CommitData) → Nat → Option CommitData
  | [], _ => none
  | (i, d) :: t, j => if i = j then some d else findC t j

/-- Download directory path for a version (utils.rs:238-241). -/
def downloadPath (v : SemVer) : String :=
  "downloads/" ++ Nat.repr v.major ++ "." ++ Nat.repr v.minor ++ "."
    ++ Nat.repr v.patch

/-- utils.rs:234-275 `download_version`: return the cached download
directory if it exists; otherwise read STEAM_USERNAME and STEAM_PASSWORD
(erroring if unset), run the DepotDownloader subprocess, and error on a
non-zero exit status. -/
def download_version (cfg : Cfg) (v : SemVer) (st : St) :
    St × Except MbssError String :=
  if v ∈ st.downloads then (st, Except.ok (downloadPath v))
  else
    match cfg.steamUsername with
    | none => (st, Except.error (MbssError.envMissing ConfigVar.steamUsername))
    | some _ =>
      match cfg.steamPassword with
      | none => (st, Except.error (MbssError.envMissing ConfigVar.steamPassword))
      | some _ =>
        let st1 : St := { st with fetchLog := st.fetchLog ++ [v] }
        if cfg.fetchOk v then
          ({ st1 with downloads := v :: st1.downloads },
           Except.ok (downloadPath v))
        else (st1, Except.error (MbssError.fetchFailed v))

/-- utils.rs:277-319 `strip_version`: return the cached stripped directory
if it exists; otherwise run the GenericStripper subprocess and error on a
non-zero exit status. -/
def strip_version (cfg : Cfg) (v : SemVer) (st : St) :
    St × Except MbssError Unit :=
  if v ∈ st.stripped then (st, Except.ok ())
  else
    let st1 : St := { st with stripLog := st.stripLog ++ [v] }
    if cfg.transformOk v then
      ({ st1 with stripped := v :: st1.stripped }, Except.ok ())
    else (st1, Except.error (MbssError.transformFailed v))

/-- main.rs:379-409 `push_to_remote`: skip silently when no `origin`
remote is configured; otherwise force-push the branch, propagating a push
failure as an error (the `?` on `remote.push`, main.rs:404). -/
def push_to_remote (cfg : Cfg) (b : BranchName) (st : St) :
    St × Except MbssError Unit :=
  if cfg.hasRemote then
    match st.locals b with
    | some c =>
      if cfg.pushOk b then
        ({ st with remote := setB st.remote b c }, Except.ok ())
      else (st, Except.error (MbssError.pushFailed b))
    | none => (st, Except.error (MbssError.pushFailed b))
  else (st, Except.ok ())

/-- main.rs:224-228: delete the local branch for the version if it
already exists, so the new commit is built fresh. -/
def delete_branch_if_exists (v : SemVer) (st : St) : St :=
  if (st.locals (BranchName.version v)).isSome then
    { st with locals := delB st.locals (BranchName.version v) }
  else st

/-- main.rs:236-253: the transform step, compiled in only under the
`stripping` cargo feature; without it the downloaded path is used
directly. -/
def strip_stage (cfg : Cfg) (v : SemVer) (st : St) :
    St × Except MbssError Unit :=
  if cfg.stripping then strip_version cfg v st else (st, Except.ok ())

/-- main.rs:278-293, parent resolution: with a previous version the
parent is the commit currently targeted by `version/<prev>` (erroring if
that branch is missing); the first version gets no parent. -/
def resolve_parents (prev : Option SemVer) (st : St) :
    Except MbssError (List Nat) :=
  match prev with
  | none => Except.ok []
  | some p =>
    match st.locals (BranchName.version p) with
    | some pc => Except.ok [pc]
    | none => Except.error (MbssError.branchNotFound (BranchName.version p))

/-- main.rs:271-302: write the tree, create the commit with the resolved
parents, force-create the branch at it, and push (a push error
propagates, main.rs:302). -/
def commit_branch_push (cfg : Cfg) (v : SemVer) (parents : List Nat)
    (st : St) : St × Except MbssError Nat :=
  let cid := st.nextId
  let st3 : St :=
    { st with
      nextId := cid + 1
      commits := (cid, ⟨parents, v⟩) :: st.commits
      locals := setB st.locals (BranchName.version v) cid }
  match push_to_remote cfg (BranchName.version v) st3 with
  | (st4, Except.error e) => (st4, Except.error e)
  | (st4, Except.ok _) => (st4, Except.ok cid)

/-- main.rs:215-310 `process_version`: delete an existing local branch for
the version, download (utils.rs), optionally strip, clear the working
tree and write the snapshot (filesystem only: the resulting tree is the
version's content), resolve the parent from `version/<prev>`, commit,
recreate the branch at the new commit, and push. -/
def process_version (cfg : Cfg) (v : SemVer) (prev : Option SemVer)
    (st : St) : St × Except MbssError Nat :=
  match download_version cfg v (delete_branch_if_exists v st) with
  | (st1, Except.error e) => (st1, Except.error e)
  | (st1, Except.ok _path) =>
    match strip_stage cfg v st1 with
    | (st2, Except.error e) => (st2, Except.error e)
    | (st2, Except.ok _) =>
      match resolve_parents prev st2 with
      | Except.error e => (st2, Except.error e)
      | Except.ok parents => commit_branch_push cfg v parents st2

/-- main.rs:431-444 `update_local_branch`: read the remote-tracking
commit for the branch (erroring if absent) and unconditionally retarget
(or create) the local branch at it. -/
def update_local_branch (b : BranchName) (st : St) :
    St × Except MbssError Unit :=
  match st.remote b with
  | none => (st, Except.error (MbssError.branchNotFound b))
  | some rc => ({ st with locals := setB st.locals b rc }, Except.ok ())

/-- main.rs:446-457 `update_latest_branch`: retarget or create
`versions/latest` at the given commit, then push it (a push error
propagates to the caller). -/
def update_latest_branch (cfg : Cfg) (cid : Nat) (st : St) :
    St × Except MbssError Unit :=
  push_to_remote cfg BranchName.latest
    { st with locals := setB st.locals BranchName.latest cid }

/-- The manifest loop of main.rs:172-211, with the end-of-loop
`versions/latest` update (main.rs:206-209).  `existing` is the set of
versions discovered by `get_existing_versions` at the start of the pass
(main.rs:163: membership of `version/<v>` among the local branches of the
initial state); `latest` and `prev` are the running
`latest_commit_id` / `previous_version` accumulators. -/
def process_versions_loop (cfg : Cfg) (existing : SemVer → Bool)
    (latest : Option Nat) (prev : Option SemVer) (st : St) :
    List SemVer → St × Except MbssError Unit
  | [] =>
    match latest with
    | none => (st, Except.ok ())
    | some cid => update_latest_branch cfg cid st
  | v :: rest =>
    match (if existing v then st.locals (BranchName.version v) else none) with
    | some cid => process_versions_loop cfg existing (some cid) (some v) st rest
    | none =>
      if (st.remote (BranchName.version v)).isSome then
        match update_local_branch (BranchName.version v) st with
        | (st1, Except.error e) => (st1, Except.error e)
        | (st1, Except.ok _) =>
          match st1.locals (BranchName.version v) with
          | some cid =>
            process_versions_loop cfg existing (some cid) (some v) st1 rest
          | none =>
            match process_version cfg v prev st1 with
            | (st3, Except.error e) => (st3, Except.error e)
            | (st3, Except.ok cid) =>
              process_versions_loop cfg existing (some cid) (some v) st3 rest
      else
        match process_version cfg v prev st with
        | (st3, Except.error e) => (st3, Except.error e)
        | (st3, Except.ok cid) =>
          process_versions_loop cfg existing (some cid) (some v) st3 rest

/-- main.rs:158-212 `process_versions`: snapshot the existing version set
from the local branches, fetch remote-tracking refs (modelled as the
identity, see the header comment), then run the manifest loop. -/
def process_versions (cfg : Cfg) (st : St) (manifest : List SemVer) :
    St × Except MbssError Unit :=
  process_versions_loop cfg
    (fun v => (st.locals (BranchName.version v)).isSome) none none st manifest

/-- Branch map with no branches. -/
def emptyB : BranchName → Option Nat := fun _ => none

/-- Fresh repository state: no commits, no branches, empty caches. -/
def st_empty : St :=
  { nextId := 0, commits := [], locals := emptyB, remote := emptyB
    downloads := [], stripped := [], fetchLog := [], stripLog := [] }

/-- Version 1.0.0, used in concrete scenarios. -/
def v100 : SemVer := ⟨1, 0, 0⟩

/-- Version 1.1.0, used in concrete scenarios. -/
def v110 : SemVer := ⟨1, 1, 0⟩

/-- Version 2.0.0, used in concrete scenarios. -/
def v200 : SemVer := ⟨2, 0, 0⟩

/-- Version 3.0.0, used in concrete scenarios. -/
def v300 : SemVer := ⟨3, 0, 0⟩

/-- Configuration with a remote whose pushes always fail; credentials set,
stripping disabled, collaborators succeed. -/
def cfgPushFail : Cfg :=
  { steamUsername := some "u", steamPassword := some "p", stripping := false
    hasRemote := true, fetchOk := fun _ => true, transformOk := fun _ => true
    pushOk := fun _ => false }

/-- Configuration with a healthy remote: credentials set, stripping
disabled, all collaborators and pushes succeed. -/
def cfgRemoteOk : Cfg :=
  { steamUsername := some "u", steamPassword := some "p", stripping := false
    hasRemote := true, fetchOk := fun _ => true, transformOk := fun _ => true
    pushOk := fun _ => true }

/-- Configuration with no remote: credentials set, stripping disabled,
collaborators succeed. -/
def cfgNoRemote : Cfg :=
  { steamUsername := some "u", steamPassword := some "p", stripping := false
    hasRemote := false, fetchOk := fun _ => true, transformOk := fun _ => true
    pushOk := fun _ => true }

/-- Configuration with both Steam credentials unset and no remote. -/
def cfgNoCreds : Cfg :=
  { steamUsername := none, steamPassword := none, stripping := false
    hasRemote := false, fetchOk := fun _ => true, transformOk := fun _ => true
    pushOk := fun _ => true }

/-- Configuration without a remote whose downloader fails exactly for
version 2.0.0 (used for C4). -/
def cfgFetchFailAt2 : Cfg :=
  { steamUsername := some "u", steamPassword := some "p", stripping := false
    hasRemote := false, fetchOk := fun u => decide (u ≠ v200)
    transformOk := fun _ => true, pushOk := fun _ => true }

/-- State with a local branch for 1.0.0 at commit 5 and the
remote-tracking branch at a different commit 9 (used for C9). -/
def stDiverged : St :=
  { st_empty with
    nextId := 10
    commits := [(5, ⟨[], v100⟩), (9, ⟨[], v100⟩)]
    locals := setB emptyB (BranchName.version v100) 5
    remote := setB emptyB (BranchName.version v100) 9 }

/-- Fresh state whose download cache already holds 1.0.0 (used for
C10). -/
def stCached : St := { st_empty with downloads := [v100] }

/-- State with a stale local `version/1.0.0` at commit 5 while the
remote-tracking branch holds the newer commit 9; version 1.1.0 is cached
for download (used for C2). -/
def stStale : St :=
  { st_empty with
    nextId := 10
    commits := [(5, ⟨[], v100⟩), (9, ⟨[], v100⟩)]
    locals := setB emptyB (BranchName.version v100) 5
    remote := setB emptyB (BranchName.version v100) 9
    downloads := [v110] }

/-- Fresh repository state where version 1.0.0 is already present in the
download cache (used for C7). -/
def stCreds : St := { st_empty with downloads := [v100] }

/-- State with a single existing branch `version/1.0.0` at commit 5 and
the id counter at 6 (used for C3's predecessor case). -/
def stWithBase : St :=
  { st_empty with
    nextId := 6
    commits := [(5, ⟨[], v100⟩)]
    locals := setB emptyB (BranchName.version v100) 5 }

/-- Updating a branch map hits the updated key. -/
theorem setB_same (m : BranchName → Option Nat) (b : BranchName) (c : Nat) :
    setB m b c b = some c := by
  simp [setB]

/-- Updating a branch map leaves other keys untouched. -/
theorem setB_other (m : BranchName → Option Nat) (b : BranchName) (c : Nat)
    (b' : BranchName) (h : b' ≠ b) : setB m b c b' = m b' := by
  simp [setB, h]

/-- Deleting a branch leaves other keys untouched. -/
theorem delB_other (m : BranchName → Option Nat) (b b' : BranchName)
    (h : b' ≠ b) : delB m b b' = m b' := by
  simp [delB, h]

/-- The commit store lookup finds the most recently added commit. -/
theorem findC_head (i : Nat) (d : CommitData) (t : List (Nat × CommitData)) :
    findC ((i, d) :: t) i = some d := by
  simp [findC]

/-- The branch-deletion step touches no other branch. -/
theorem dbie_locals_other (v : SemVer) (st : St) (b' : BranchName)
    (h : b' ≠ BranchName.version v) :
    (delete_branch_if_exists v st).locals b' = st.locals b' := by
  unfold delete_branch_if_exists
  split
  · exact delB_other _ _ _ h
  · rfl

/-- After the branch-deletion step the version's own branch is gone
(either it was deleted or it was already absent). -/
theorem dbie_locals_self (v : SemVer) (st : St) :
    (delete_branch_if_exists v st).locals (BranchName.version v) = none := by
  unfold delete_branch_if_exists
  split
  · simp [delB]
  · next h =>
      cases hx : st.locals (BranchName.version v) with
      | none => rfl
      | some c => exact absurd (by rw [hx]; rfl) h

/-- The branch-deletion step touches only the local branch map. -/
theorem dbie_frame (v : SemVer) (st : St) :
    (delete_branch_if_exists v st).commits = st.commits ∧
    (delete_branch_if_exists v st).nextId = st.nextId ∧
    (delete_branch_if_exists v st).downloads = st.downloads ∧
    (delete_branch_if_exists v st).stripped = st.stripped ∧
    (delete_branch_if_exists v st).fetchLog = st.fetchLog ∧
    (delete_branch_if_exists v st).remote = st.remote := by
  unfold delete_branch_if_exists
  split <;> exact ⟨rfl, rfl, rfl, rfl, rfl, rfl⟩

/-- With no local branch for the version, the deletion step is a no-op. -/
theorem dbie_of_none (v : SemVer) (st : St)
    (h : st.locals (BranchName.version v) = none) :
    delete_branch_if_exists v st = st := by
  unfold delete_branch_if_exists
  rw [h]
  rfl

/-- The download step never touches the git store (branches, commits, id
counter), the stripped cache, or the remote. -/
theorem download_frame (cfg : Cfg) (v : SemVer) (st : St) :
    (download_version cfg v st).1.locals = st.locals ∧
    (download_version cfg v st).1.commits = st.commits ∧
    (download_version cfg v st).1.nextId = st.nextId ∧
    (download_version cfg v st).1.stripped = st.stripped ∧
    (download_version cfg v st).1.remote = st.remote := by
  unfold download_version
  repeat' split
  all_goals exact ⟨rfl, rfl, rfl, rfl, rfl⟩

/-- The download step either leaves the downloader log unchanged (cache
hit, or an error before the subprocess runs) or appends exactly the one
version it was asked for. -/
theorem download_fetchLog_cases (cfg : Cfg) (v : SemVer) (st : St) :
    (download_version cfg v st).1.fetchLog = st.fetchLog ∨
    (download_version cfg v st).1.fetchLog = st.fetchLog ++ [v] := by
  unfold download_version
  repeat' split
  all_goals first
    | exact Or.inl rfl
    | exact Or.inr rfl

/-- Errors of the download step: a missing credential or a downloader
failure for the requested version. -/
theorem download_err_shape (cfg : Cfg) (v : SemVer) (st : St)
    (e : MbssError) (h : (download_version cfg v st).2 = Except.error e) :
    e = MbssError.envMissing ConfigVar.steamUsername ∨
    e = MbssError.envMissing ConfigVar.steamPassword ∨
    e = MbssError.fetchFailed v := by
  unfold download_version at h
  repeat' split at h
  all_goals simp_all

/-- The strip stage never touches the git store, the download cache, the
downloader log, or the remote. -/
theorem strip_frame (cfg : Cfg) (v : SemVer) (st : St) :
    (strip_stage cfg v st).1.locals = st.locals ∧
    (strip_stage cfg v st).1.commits = st.commits ∧
    (strip_stage cfg v st).1.nextId = st.nextId ∧
    (strip_stage cfg v st).1.downloads = st.downloads ∧
    (strip_stage cfg v st).1.fetchLog = st.fetchLog ∧
    (strip_stage cfg v st).1.remote = st.remote := by
  unfold strip_stage strip_version
  repeat' split
  all_goals exact ⟨rfl, rfl, rfl, rfl, rfl, rfl⟩

/-- The only error of the strip stage is a stripper failure for the
requested version. -/
theorem strip_err_shape (cfg : Cfg) (v : SemVer) (st : St) (e : MbssError)
    (h : (strip_stage cfg v st).2 = Except.error e) :
    e = MbssError.transformFailed v := by
  unfold strip_stage strip_version at h
  repeat' split at h
  all_goals simp_all

/-- Pushing never touches the local store: only the remote side can
change. -/
theorem push_frame (cfg : Cfg) (b : BranchName) (st : St) :
    (push_to_remote cfg b st).1.locals = st.locals ∧
    (push_to_remote cfg b st).1.commits = st.commits ∧
    (push_to_remote cfg b st).1.nextId = st.nextId ∧
    (push_to_remote cfg b st).1.downloads = st.downloads ∧
    (push_to_remote cfg b st).1.stripped = st.stripped ∧
    (push_to_remote cfg b st).1.fetchLog = st.fetchLog := by
  unfold push_to_remote
  repeat' split
  all_goals exact ⟨rfl, rfl, rfl, rfl, rfl, rfl⟩

/-- The only error of a push is a push failure for that branch. -/
theorem push_err_shape (cfg : Cfg) (b : BranchName) (st : St)
    (e : MbssError) (h : (push_to_remote cfg b st).2 = Except.error e) :
    e = MbssError.pushFailed b := by
  unfold push_to_remote at h
  repeat' split at h
  all_goals simp_all

/-- Without a configured remote, a push is a silent no-op
(main.rs:405-407). -/
theorem push_no_remote (cfg : Cfg) (b : BranchName) (st : St)
    (h : cfg.hasRemote = false) :
    push_to_remote cfg b st = (st, Except.ok ()) := by
  unfold push_to_remote
  rw [h]
  rfl

/-- Successful parent resolution: no previous version gives a root commit
(no parents); a previous version gives exactly its branch's current
target as the single parent. -/
theorem resolve_parents_ok (prev : Option SemVer) (st : St)
    (parents : List Nat) (h : resolve_parents prev st = Except.ok parents) :
    (prev = none ∧ parents = []) ∨
    ∃ p pc, prev = some p ∧
      st.locals (BranchName.version p) = some pc ∧ parents = [pc] := by
  cases prev with
  | none =>
      left
      refine ⟨rfl, ?_⟩
      simpa [resolve_parents] using h.symm
  | some p =>
      right
      simp only [resolve_parents] at h
      split at h
      · next pc hpc =>
          refine ⟨p, pc, rfl, hpc, ?_⟩
          simpa using h.symm
      · simp_all

/-- The only error of parent resolution is a missing branch. -/
theorem resolve_parents_err (prev : Option SemVer) (st : St)
    (e : MbssError) (h : resolve_parents prev st = Except.error e) :
    ∃ b, e = MbssError.branchNotFound b := by
  unfold resolve_parents at h
  repeat' split at h
  all_goals try simp at h
  all_goals exact ⟨_, h.symm⟩

/-- State facts of the commit step, independent of the push outcome: the
version's branch ends at the newly allocated commit id, the id counter
advances by one, the new commit holds exactly the given parents and the
version's tree, and the downloader log is untouched. -/
theorem cbp_state (cfg : Cfg) (v : SemVer) (parents : List Nat) (st : St) :
    (commit_branch_push cfg v parents st).1.locals (BranchName.version v)
        = some st.nextId ∧
    (commit_branch_push cfg v parents st).1.nextId = st.nextId + 1 ∧
    findC (commit_branch_push cfg v parents st).1.commits st.nextId
        = some ⟨parents, v⟩ ∧
    (commit_branch_push cfg v parents st).1.fetchLog = st.fetchLog := by
  simp only [commit_branch_push]
  split
  all_goals
    next st4 _ heq =>
      have hf := push_frame cfg (BranchName.version v)
        { st with
          nextId := st.nextId + 1
          commits := (st.nextId, ⟨parents, v⟩) :: st.commits
          locals := setB st.locals (BranchName.version v) st.nextId }
      rw [heq] at hf
      have h1 : st4.locals = setB st.locals (BranchName.version v) st.nextId :=
        hf.1
      have h2 : st4.commits
          = (st.nextId, (⟨parents, v⟩ : CommitData)) :: st.commits := hf.2.1
      have h3 : st4.nextId = st.nextId + 1 := hf.2.2.1
      have h6 : st4.fetchLog = st.fetchLog := hf.2.2.2.2.2
      refine ⟨?_, ?_, ?_, ?_⟩
      · show st4.locals (BranchName.version v) = some st.nextId
        rw [h1]
        exact setB_same _ _ _
      · exact h3
      · show findC st4.commits st.nextId = some ⟨parents, v⟩
        rw [h2]
        exact findC_head _ _ _
      · exact h6

/-- The commit step touches no other local branch. -/
theorem cbp_locals_other (cfg : Cfg) (v : SemVer) (parents : List Nat)
    (st : St) (b' : BranchName) (h : b' ≠ BranchName.version v) :
    (commit_branch_push cfg v parents st).1.locals b' = st.locals b' := by
  simp only [commit_branch_push]
  split
  all_goals
    next st4 _ heq =>
      have hf := (push_frame cfg (BranchName.version v)
        { st with
          nextId := st.nextId + 1
          commits := (st.nextId, ⟨parents, v⟩) :: st.commits
          locals := setB st.locals (BranchName.version v) st.nextId }).1
      rw [heq] at hf
      have h1 : st4.locals = setB st.locals (BranchName.version v) st.nextId :=
        hf
      show st4.locals b' = st.locals b'
      rw [h1]
      exact setB_other _ _ _ _ h

/-- The commit step either succeeds with the freshly allocated commit id
or fails with a push failure for the version's branch. -/
theorem cbp_outcome (cfg : Cfg) (v : SemVer) (parents : List Nat)
    (st : St) :
    (commit_branch_push cfg v parents st).2 = Except.ok st.nextId ∨
    (commit_branch_push cfg v parents st).2
      = Except.error (MbssError.pushFailed (BranchName.version v)) := by
  simp only [commit_branch_push]
  split
  · next st4 e heq =>
      right
      have := push_err_shape cfg (BranchName.version v) _ e (by rw [heq])
      simp [this]
  · left; rfl

/-- The local-branch update touches nothing but the local branch map. -/
theorem ulb_frame (b : BranchName) (st : St) :
    (update_local_branch b st).1.commits = st.commits ∧
    (update_local_branch b st).1.nextId = st.nextId ∧
    (update_local_branch b st).1.downloads = st.downloads ∧
    (update_local_branch b st).1.stripped = st.stripped ∧
    (update_local_branch b st).1.fetchLog = st.fetchLog ∧
    (update_local_branch b st).1.remote = st.remote := by
  unfold update_local_branch
  split <;> exact ⟨rfl, rfl, rfl, rfl, rfl, rfl⟩

/-- The local-branch update touches no other branch. -/
theorem ulb_locals_other (b : BranchName) (st : St) (b' : BranchName)
    (h : b' ≠ b) :
    (update_local_branch b st).1.locals b' = st.locals b' := by
  unfold update_local_branch
  split
  · rfl
  · exact setB_other _ _ _ _ h

/-- A failing local-branch update leaves the state untouched. -/
theorem ulb_err_state (b : BranchName) (st : St) (e : MbssError)
    (h : (update_local_branch b st).2 = Except.error e) :
    (update_local_branch b st).1 = st := by
  unfold update_local_branch at h ⊢
  split at h <;> simp_all

/-- Equation form of `download_frame`. -/
theorem download_state (cfg : Cfg) (v : SemVer) (st st' : St)
    (r : Except MbssError String)
    (hd : download_version cfg v st = (st', r)) :
    st'.locals = st.locals ∧ st'.commits = st.commits ∧
    st'.nextId = st.nextId ∧ st'.stripped = st.stripped ∧
    st'.remote = st.remote := by
  have h := download_frame cfg v st
  rw [hd] at h
  exact h

/-- Equation form of `strip_frame`. -/
theorem strip_state (cfg : Cfg) (v : SemVer) (st st' : St)
    (r : Except MbssError Unit) (hs : strip_stage cfg v st = (st', r)) :
    st'.locals = st.locals ∧ st'.commits = st.commits ∧
    st'.nextId = st.nextId ∧ st'.downloads = st.downloads ∧
    st'.fetchLog = st.fetchLog ∧ st'.remote = st.remote := by
  have h := strip_frame cfg v st
  rw [hs] at h
  exact h

/-- A version build touches no local branch other than the one for the
version being built — regardless of success or failure. -/
theorem pv_locals_other (cfg : Cfg) (v : SemVer) (prev : Option SemVer)
    (st st' : St) (r : Except MbssError Nat)
    (hpv : process_version cfg v prev st = (st', r)) (b' : BranchName)
    (h : b' ≠ BranchName.version v) : st'.locals b' = st.locals b' := by
  unfold process_version at hpv
  split at hpv
  · rename_i st1 e hd
    injection hpv with h1 h2
    subst h1
    rw [(download_state cfg v _ st1 _ hd).1]
    exact dbie_locals_other v st b' h
  · rename_i st1 path hd
    have hD := (download_state cfg v _ st1 _ hd).1
    split at hpv
    · rename_i st2 e hs
      injection hpv with h1 h2
      subst h1
      rw [(strip_state cfg v st1 st2 _ hs).1, hD]
      exact dbie_locals_other v st b' h
    · rename_i st2 u hs
      have hS := (strip_state cfg v st1 st2 _ hs).1
      split at hpv
      · rename_i e hr
        injection hpv with h1 h2
        subst h1
        rw [hS, hD]
        exact dbie_locals_other v st b' h
      · rename_i parents hr
        have hc := cbp_locals_other cfg v parents st2 b' h
        rw [hpv] at hc
        have hc' : st'.locals b' = st2.locals b' := hc
        rw [hc', hS, hD]
        exact dbie_locals_other v st b' h

/-- Every downloader invocation a version build adds to the log is for
the version being built. -/
theorem pv_fetchLog (cfg : Cfg) (v : SemVer) (prev : Option SemVer)
    (st st' : St) (r : Except MbssError Nat)
    (hpv : process_version cfg v prev st = (st', r)) (u : SemVer)
    (hu : u ∈ st'.fetchLog) : u ∈ st.fetchLog ∨ u = v := by
  have hdl : ∀ st1 : St, ∀ r1 : Except MbssError String,
      download_version cfg v (delete_branch_if_exists v st) = (st1, r1) →
      u ∈ st1.fetchLog → u ∈ st.fetchLog ∨ u = v := by
    intro st1 r1 hd hm
    have hcases := download_fetchLog_cases cfg v (delete_branch_if_exists v st)
    rw [hd] at hcases
    have hdf : (delete_branch_if_exists v st).fetchLog = st.fetchLog :=
      (dbie_frame v st).2.2.2.2.1
    rcases hcases with hc | hc
    · have hc' : st1.fetchLog = st.fetchLog := by rw [← hdf]; exact hc
      rw [hc'] at hm
      exact Or.inl hm
    · have hc' : st1.fetchLog = st.fetchLog ++ [v] := by rw [← hdf]; exact hc
      rw [hc'] at hm
      rcases List.mem_append.mp hm with hm1 | hm1
      · exact Or.inl hm1
      · exact Or.inr (List.mem_singleton.mp hm1)
  unfold process_version at hpv
  split at hpv
  · rename_i st1 e hd
    injection hpv with h1 h2
    subst h1
    exact hdl st1 _ hd hu
  · rename_i st1 path hd
    split at hpv
    · rename_i st2 e hs
      injection hpv with h1 h2
      subst h1
      have hS : st2.fetchLog = st1.fetchLog :=
        (strip_state cfg v st1 st2 _ hs).2.2.2.2.1
      rw [hS] at hu
      exact hdl st1 _ hd hu
    · rename_i st2 uu hs
      have hS : st2.fetchLog = st1.fetchLog :=
        (strip_state cfg v st1 st2 _ hs).2.2.2.2.1
      split at hpv
      · rename_i e hr
        injection hpv with h1 h2
        subst h1
        rw [hS] at hu
        exact hdl st1 _ hd hu
      · rename_i parents hr
        have hcf := (cbp_state cfg v parents st2).2.2.2
        rw [hpv] at hcf
        have hcf' : st'.fetchLog = st2.fetchLog := hcf
        rw [hcf', hS] at hu
        exact hdl st1 _ hd hu

/-- Specification of a successful version build: the returned commit id
is the freshly allocated one, the id counter advances by one, the
version's branch ends at the new commit, and the new commit records the
version's tree with exactly the resolved parents — no parent for a first
version, and exactly the current target of `version/<prev>` (read from
the pre-build state) for a later one. -/
theorem pv_ok_spec (cfg : Cfg) (v : SemVer) (prev : Option SemVer)
    (st st' : St) (cid : Nat)
    (hpv : process_version cfg v prev st = (st', Except.ok cid)) :
    cid = st.nextId ∧
    st'.nextId = st.nextId + 1 ∧
    st'.locals (BranchName.version v) = some st.nextId ∧
    ∃ ps, findC st'.commits st.nextId = some ⟨ps, v⟩ ∧
      (prev = none → ps = []) ∧
      ∀ p, prev = some p →
        ∃ pc, st.locals (BranchName.version p) = some pc ∧ ps = [pc] := by
  unfold process_version at hpv
  split at hpv
  · rename_i st1 e hd
    simp at hpv
  · rename_i st1 path hd
    split at hpv
    · rename_i st2 e hs
      simp at hpv
    · rename_i st2 uu hs
      split at hpv
      · rename_i e hr
        simp at hpv
      · rename_i parents hr
        have hn2 : st2.nextId = st.nextId := by
          rw [(strip_state cfg v st1 st2 _ hs).2.2.1,
            (download_state cfg v _ st1 _ hd).2.2.1, (dbie_frame v st).2.1]
        have hl2 : st2.locals = (delete_branch_if_exists v st).locals := by
          rw [(strip_state cfg v st1 st2 _ hs).1,
            (download_state cfg v _ st1 _ hd).1]
        have hout := cbp_outcome cfg v parents st2
        rw [hpv] at hout
        rcases hout with hok | herr
        · have hcid : cid = st2.nextId := Except.ok.inj hok
          have hstate := cbp_state cfg v parents st2
          rw [hpv] at hstate
          have hlv : st'.locals (BranchName.version v) = some st2.nextId :=
            hstate.1
          have hnn : st'.nextId = st2.nextId + 1 := hstate.2.1
          have hcc : findC st'.commits st2.nextId = some ⟨parents, v⟩ :=
            hstate.2.2.1
          refine ⟨by rw [hcid, hn2], by rw [hnn, hn2], by rw [hlv, hn2],
            parents, by rw [← hn2]; exact hcc, ?_, ?_⟩
          · intro hpn
            rcases resolve_parents_ok prev st2 parents hr with
              ⟨-, hps⟩ | ⟨p, pc, hp, -, -⟩
            · exact hps
            · rw [hpn] at hp
              exact Option.noConfusion hp
          · intro p hp
            rcases resolve_parents_ok prev st2 parents hr with
              ⟨hpn, -⟩ | ⟨p', pc, hp', hpc, hps⟩
            · rw [hp] at hpn
              exact Option.noConfusion hpn
            · rw [hp] at hp'
              have hpp : p = p' := Option.some.inj hp'
              subst hpp
              rw [hl2] at hpc
              by_cases hveq : p = v
              · subst hveq
                rw [dbie_locals_self p st] at hpc
                exact Option.noConfusion hpc
              · rw [dbie_locals_other v st _
                  (fun hh => hveq (BranchName.version.inj hh))] at hpc
                exact ⟨pc, hpc, hps⟩
        · simp at herr

/-- A version build that fails with anything other than a push failure
leaves the commit store and the id counter untouched, and leaves the
version's local branch absent (it was deleted at the start of the build,
or was already absent; the failure happened before the branch was
recreated). -/
theorem pv_err_spec (cfg : Cfg) (v : SemVer) (prev : Option SemVer)
    (st st' : St) (e : MbssError)
    (hpv : process_version cfg v prev st = (st', Except.error e))
    (hnp : ∀ b, e ≠ MbssError.pushFailed b) :
    st'.commits = st.commits ∧ st'.nextId = st.nextId ∧
    st'.locals (BranchName.version v) = none := by
  unfold process_version at hpv
  split at hpv
  · rename_i st1 e1 hd
    injection hpv with h1 h2
    subst h1
    refine ⟨?_, ?_, ?_⟩
    · rw [(download_state cfg v _ st1 _ hd).2.1, (dbie_frame v st).1]
    · rw [(download_state cfg v _ st1 _ hd).2.2.1, (dbie_frame v st).2.1]
    · rw [(download_state cfg v _ st1 _ hd).1]
      exact dbie_locals_self v st
  · rename_i st1 path hd
    split at hpv
    · rename_i st2 e2 hs
      injection hpv with h1 h2
      subst h1
      refine ⟨?_, ?_, ?_⟩
      · rw [(strip_state cfg v st1 st2 _ hs).2.1,
          (download_state cfg v _ st1 _ hd).2.1, (dbie_frame v st).1]
      · rw [(strip_state cfg v st1 st2 _ hs).2.2.1,
          (download_state cfg v _ st1 _ hd).2.2.1, (dbie_frame v st).2.1]
      · rw [(strip_state cfg v st1 st2 _ hs).1,
          (download_state cfg v _ st1 _ hd).1]
        exact dbie_locals_self v st
    · rename_i st2 uu hs
      split at hpv
      · rename_i e3 hr
        injection hpv with h1 h2
        subst h1
        refine ⟨?_, ?_, ?_⟩
        · rw [(strip_state cfg v st1 st2 _ hs).2.1,
            (download_state cfg v _ st1 _ hd).2.1, (dbie_frame v st).1]
        · rw [(strip_state cfg v st1 st2 _ hs).2.2.1,
            (download_state cfg v _ st1 _ hd).2.2.1, (dbie_frame v st).2.1]
        · rw [(strip_state cfg v st1 st2 _ hs).1,
            (download_state cfg v _ st1 _ hd).1]
          exact dbie_locals_self v st
      · rename_i parents hr
        have hout := cbp_outcome cfg v parents st2
        rw [hpv] at hout
        rcases hout with hok | herr
        · exact absurd hok (by simp)
        · have he : e = MbssError.pushFailed (BranchName.version v) :=
            Except.error.inj herr
          exact absurd he (hnp _)

/-- Every possible error of a version build. -/
theorem pv_err_shape (cfg : Cfg) (v : SemVer) (prev : Option SemVer)
    (st st' : St) (e : MbssError)
    (hpv : process_version cfg v prev st = (st', Except.error e)) :
    e = MbssError.envMissing ConfigVar.steamUsername ∨
    e = MbssError.envMissing ConfigVar.steamPassword ∨
    e = MbssError.fetchFailed v ∨
    e = MbssError.transformFailed v ∨
    (∃ b, e = MbssError.branchNotFound b) ∨
    e = MbssError.pushFailed (BranchName.version v) := by
  unfold process_version at hpv
  split at hpv
  · rename_i st1 e1 hd
    injection hpv with h1 h2
    have he : e1 = e := Except.error.inj h2
    subst he
    rcases download_err_shape cfg v _ e1 (by rw [hd]) with h | h | h
    · exact Or.inl h
    · exact Or.inr (Or.inl h)
    · exact Or.inr (Or.inr (Or.inl h))
  · rename_i st1 path hd
    split at hpv
    · rename_i st2 e2 hs
      injection hpv with h1 h2
      have he : e2 = e := Except.error.inj h2
      subst he
      exact Or.inr (Or.inr (Or.inr (Or.inl
        (strip_err_shape cfg v st1 e2 (by rw [hs])))))
    · rename_i st2 uu hs
      split at hpv
      · rename_i e3 hr
        injection hpv with h1 h2
        have he : e3 = e := Except.error.inj h2
        subst he
        exact Or.inr (Or.inr (Or.inr (Or.inr (Or.inl
          (resolve_parents_err prev st2 e3 hr)))))
      · rename_i parents hr
        have hout := cbp_outcome cfg v parents st2
        rw [hpv] at hout
        rcases hout with hok | herr
        · exact absurd hok (by simp)
        · exact Or.inr (Or.inr (Or.inr (Or.inr (Or.inr
            (Except.error.inj herr)))))

/-- Claim C1, amended: a push failure is logged but ABORTS the build —
`process_version` propagates the push error (`?` at main.rs:302/404)
instead of returning the new commit id, and the reconciliation pass stops
(`?` at main.rs:201).  What survives of the original claim: the failure
happens after the commit and branch were created locally, so the local
commit stands and only the mirror is stale. -/
theorem push_failure_aborts_build (cfg : Cfg) (v : SemVer)
    (prev : Option SemVer)
    (st st' : St) (b : BranchName)
    (hpv : process_version cfg v prev st
      = (st', Except.error (MbssError.pushFailed b))) :
    b = BranchName.version v ∧
    st'.locals (BranchName.version v) = some st.nextId ∧
    st'.nextId = st.nextId + 1 ∧
    ∃ ps, findC st'.commits st.nextId = some ⟨ps, v⟩ := by
  unfold process_version at hpv
  split at hpv
  · rename_i st1 e1 hd
    injection hpv with h1 h2
    have he : e1 = MbssError.pushFailed b := Except.error.inj h2
    rcases download_err_shape cfg v _ e1 (by rw [hd]) with h | h | h <;>
      (rw [he] at h; simp at h)
  · rename_i st1 path hd
    split at hpv
    · rename_i st2 e2 hs
      injection hpv with h1 h2
      have he : e2 = MbssError.pushFailed b := Except.error.inj h2
      have h := strip_err_shape cfg v st1 e2 (by rw [hs])
      rw [he] at h
      simp at h
    · rename_i st2 uu hs
      split at hpv
      · rename_i e3 hr
        injection hpv with h1 h2
        have he : e3 = MbssError.pushFailed b := Except.error.inj h2
        obtain ⟨bb, h⟩ := resolve_parents_err prev st2 e3 hr
        rw [he] at h
        simp at h
      · rename_i parents hr
        have hn2 : st2.nextId = st.nextId := by
          rw [(strip_state cfg v st1 st2 _ hs).2.2.1,
            (download_state cfg v _ st1 _ hd).2.2.1, (dbie_frame v st).2.1]
        have hout := cbp_outcome cfg v parents st2
        rw [hpv] at hout
        rcases hout with hok | herr
        · exact absurd hok (by simp)
        · have hb : MbssError.pushFailed b
              = MbssError.pushFailed (BranchName.version v) :=
            Except.error.inj herr
          have hbv : b = BranchName.version v := MbssError.pushFailed.inj hb
          have hstate := cbp_state cfg v parents st2
          rw [hpv] at hstate
          have hlv : st'.locals (BranchName.version v) = some st2.nextId :=
            hstate.1
          have hnn : st'.nextId = st2.nextId + 1 := hstate.2.1
          have hcc : findC st'.commits st2.nextId = some ⟨parents, v⟩ :=
            hstate.2.2.1
          exact ⟨hbv, by rw [hlv, hn2], by rw [hnn, hn2],
            parents, by rw [← hn2]; exact hcc⟩

/-- If a version was in the start-of-pass snapshot and its local branch
currently targets commit `c`, the rest of the manifest loop never moves
that branch: its own iteration takes the skip path, and iterations for
other versions only touch their own branches (and `versions/latest`). -/
theorem loop_keeps_existing_local (cfg : Cfg) (existing : SemVer → Bool)
    (w : SemVer) (c : Nat) (hx : existing w = true) :
    ∀ (l : List SemVer) (latest : Option Nat) (prev : Option SemVer)
      (st : St), st.locals (BranchName.version w) = some c →
      (process_versions_loop cfg existing latest prev st l).1.locals
        (BranchName.version w) = some c := by
  intro l
  induction l with
  | nil =>
      intro latest prev st hl
      cases latest with
      | none =>
          simp only [process_versions_loop]
          exact hl
      | some cid =>
          simp only [process_versions_loop, update_latest_branch]
          have hp := (push_frame cfg BranchName.latest
            { st with locals := setB st.locals BranchName.latest cid }).1
          rw [hp]
          show setB st.locals BranchName.latest cid (BranchName.version w)
            = some c
          rw [setB_other _ _ _ _ (fun hh => BranchName.noConfusion hh)]
          exact hl
  | cons v rest ih =>
      intro latest prev st hl
      simp only [process_versions_loop]
      split
      · rename_i cid hskip
        exact ih (some cid) (some v) st hl
      · rename_i hskip
        have hwv : w ≠ v := by
          intro hh
          subst hh
          simp [hx, hl] at hskip
        have hbv : BranchName.version w ≠ BranchName.version v :=
          fun hh => hwv (BranchName.version.inj hh)
        split
        · split
          · rename_i st1 e hu
            have h0 := ulb_err_state (BranchName.version v) st e (by rw [hu])
            rw [hu] at h0
            have h1 : st1 = st := h0
            show st1.locals (BranchName.version w) = some c
            rw [h1]
            exact hl
          · rename_i st1 uu hu
            have hot : st1.locals (BranchName.version w) = some c := by
              have h2 := ulb_locals_other (BranchName.version v) st _ hbv
              rw [hu] at h2
              have h2' : st1.locals (BranchName.version w)
                  = st.locals (BranchName.version w) := h2
              rw [h2']
              exact hl
            split
            · rename_i cid hcid
              exact ih (some cid) (some v) st1 hot
            · split
              · rename_i st3 e hp3
                show st3.locals (BranchName.version w) = some c
                rw [pv_locals_other cfg v prev st1 st3 _ hp3 _ hbv]
                exact hot
              · rename_i st3 cid hp3
                refine ih (some cid) (some v) st3 ?_
                rw [pv_locals_other cfg v prev st1 st3 _ hp3 _ hbv]
                exact hot
        · split
          · rename_i st3 e hp3
            show st3.locals (BranchName.version w) = some c
            rw [pv_locals_other cfg v prev st st3 _ hp3 _ hbv]
            exact hl
          · rename_i st3 cid hp3
            refine ih (some cid) (some v) st3 ?_
            rw [pv_locals_other cfg v prev st st3 _ hp3 _ hbv]
            exact hl

/-- Claim C2, amended: a version that already has a local branch is
recorded as-is and skipped — the pass never fast-forwards it to the
remote commit, no matter how the remote-tracking branch diverges
(main.rs:175-183 `continue`s before the remote check at main.rs:186 is
reached).  `update_local_branch` runs only for versions with no local
branch. -/
theorem existing_local_branch_kept_stale (cfg : Cfg) (st : St)
    (m : List SemVer) (v : SemVer) (c : Nat)
    (hl : st.locals (BranchName.version v) = some c) :
    (process_versions cfg st m).1.locals (BranchName.version v) = some c := by
  unfold process_versions
  exact loop_keeps_existing_local cfg _ v c (by rw [hl]; rfl) m none none st hl

/-- Witness for the amended C2: the spec's own scenario — manifest
`[1.0.0, 1.1.0]`, stale local `version/1.0.0` at commit 5, remote at 9 —
ends with the local branch still at commit 5. -/
theorem existing_local_branch_kept_stale_witness :
    (process_versions cfgRemoteOk stStale [v100, v110]).1.locals
      (BranchName.version v100) = some 5 :=
  existing_local_branch_kept_stale cfgRemoteOk stStale [v100, v110] v100 5
    (by decide)

/-- A pair whose second component is known collapses to a literal pair. -/
theorem pair_eta (p : St × Except MbssError Unit) (r : Except MbssError Unit)
    (h : p.2 = r) : p = (p.1, r) := by
  rw [← h]

/-- The latest-branch update retargets exactly `versions/latest`,
whatever the push outcome. -/
theorem update_latest_locals (cfg : Cfg) (cid : Nat) (st st' : St)
    (r : Except MbssError Unit)
    (h : update_latest_branch cfg cid st = (st', r)) :
    st'.locals = setB st.locals BranchName.latest cid := by
  unfold update_latest_branch at h
  have hp := (push_frame cfg BranchName.latest
    { st with locals := setB st.locals BranchName.latest cid }).1
  rw [h] at hp
  exact hp

/-- The latest-branch update touches neither the commit store, nor the id
counter, nor the downloader log. -/
theorem update_latest_frame (cfg : Cfg) (cid : Nat) (st st' : St)
    (r : Except MbssError Unit)
    (h : update_latest_branch cfg cid st = (st', r)) :
    st'.commits = st.commits ∧ st'.nextId = st.nextId ∧
    st'.fetchLog = st.fetchLog := by
  unfold update_latest_branch at h
  have hp := push_frame cfg BranchName.latest
    { st with locals := setB st.locals BranchName.latest cid }
  rw [h] at hp
  exact ⟨hp.2.1, hp.2.2.1, hp.2.2.2.2.2⟩

/-- Without a remote, the latest-branch update always succeeds and only
retargets `versions/latest`. -/
theorem update_latest_no_remote (cfg : Cfg) (cid : Nat) (st : St)
    (h : cfg.hasRemote = false) :
    update_latest_branch cfg cid st
      = ({ st with locals := setB st.locals BranchName.latest cid },
         Except.ok ()) := by
  unfold update_latest_branch
  exact push_no_remote cfg _ _ h

/-- The only error of the latest-branch update is a push failure of
`versions/latest`. -/
theorem update_latest_err (cfg : Cfg) (cid : Nat) (st st' : St)
    (e : MbssError)
    (h : update_latest_branch cfg cid st = (st', Except.error e)) :
    e = MbssError.pushFailed BranchName.latest := by
  unfold update_latest_branch at h
  exact push_err_shape cfg _ _ e (by rw [h])

/-- A successful local-branch update targets the remote-tracking
commit. -/
theorem ulb_ok_locals (b : BranchName) (st st' : St)
    (hu : update_local_branch b st = (st', Except.ok ())) :
    ∃ rc, st.remote b = some rc ∧ st'.locals = setB st.locals b rc := by
  unfold update_local_branch at hu
  split at hu
  · simp at hu
  · next rc hrc =>
      injection hu with h1 h2
      exact ⟨rc, hrc, by rw [← h1]⟩

/-- The only error of the local-branch update is the missing
remote-tracking branch. -/
theorem ulb_err_shape (b : BranchName) (st st' : St) (e : MbssError)
    (hu : update_local_branch b st = (st', Except.error e)) :
    e = MbssError.branchNotFound b ∧ st' = st := by
  unfold update_local_branch at hu
  split at hu
  · injection hu with h1 h2
    exact ⟨(Except.error.inj h2).symm, h1.symm⟩
  · simp at hu

/-- One iteration of the manifest loop either aborts the whole loop with
an error, or hands the tail a state in which the iterated version's
branch targets the recorded commit id. -/
theorem loop_step (cfg : Cfg) (existing : SemVer → Bool) (v : SemVer)
    (rest : List SemVer) (latest : Option Nat) (prev : Option SemVer)
    (st st' : St) (r : Except MbssError Unit)
    (hlp : process_versions_loop cfg existing latest prev st (v :: rest)
      = (st', r)) :
    (∃ e, r = Except.error e) ∨
    ∃ cid stmid, stmid.locals (BranchName.version v) = some cid ∧
      process_versions_loop cfg existing (some cid) (some v) stmid rest
        = (st', r) := by
  simp only [process_versions_loop] at hlp
  split at hlp
  · rename_i cid hskip
    right
    refine ⟨cid, st, ?_, hlp⟩
    by_cases hx : existing v = true
    · rw [hx] at hskip
      simpa using hskip
    · simp [hx] at hskip
  · rename_i hskip
    split at hlp
    · split at hlp
      · rename_i st1 e hu
        injection hlp with h1 h2
        exact Or.inl ⟨e, h2.symm⟩
      · rename_i st1 uu hu
        split at hlp
        · rename_i cid hcid
          exact Or.inr ⟨cid, st1, hcid, hlp⟩
        · split at hlp
          · rename_i st3 e hp3
            injection hlp with h1 h2
            exact Or.inl ⟨e, h2.symm⟩
          · rename_i st3 cid hp3
            have hspec := pv_ok_spec cfg v prev st1 st3 cid hp3
            exact Or.inr ⟨cid, st3,
              by rw [hspec.2.2.1, hspec.1], hlp⟩
    · split at hlp
      · rename_i st3 e hp3
        injection hlp with h1 h2
        exact Or.inl ⟨e, h2.symm⟩
      · rename_i st3 cid hp3
        have hspec := pv_ok_spec cfg v prev st st3 cid hp3
        exact Or.inr ⟨cid, st3,
          by rw [hspec.2.2.1, hspec.1], hlp⟩

/-- After a successful loop over a non-empty manifest tail,
`versions/latest` and the branch of the last manifest entry target the
same commit. -/
theorem loop_latest_targets_last (cfg : Cfg) (existing : SemVer → Bool) :
    ∀ (l : List SemVer) (vlast : SemVer) (latest : Option Nat)
      (prev : Option SemVer) (st st' : St),
      l.getLast? = some vlast →
      process_versions_loop cfg existing latest prev st l
        = (st', Except.ok ()) →
      st'.locals BranchName.latest
        = st'.locals (BranchName.version vlast) := by
  intro l
  induction l with
  | nil =>
      intro vlast latest prev st st' hlast hlp
      simp at hlast
  | cons v rest ih =>
      intro vlast latest prev st st' hlast hlp
      rcases loop_step cfg existing v rest latest prev st st' _ hlp with
        ⟨e, he⟩ | ⟨cid, stmid, hmid, hlp2⟩
      · exact absurd he (by simp)
      · cases rest with
        | nil =>
            have hv : v = vlast := by simpa using hlast
            subst hv
            simp only [process_versions_loop] at hlp2
            have hloc := update_latest_locals cfg cid stmid st' _ hlp2
            rw [hloc, setB_same,
              setB_other _ _ _ _ (fun hh => BranchName.noConfusion hh), hmid]
        | cons r rs =>
            have hlast2 : (r :: rs).getLast? = some vlast := by
              rw [← hlast]
              exact List.getLast?_cons_cons.symm
            exact ih vlast (some cid) (some v) stmid st' hlast2 hlp2

/-- Claim C6, amended: after a successful reconciliation run over a
non-empty manifest, `versions/latest` targets the commit recorded for the
LAST version in manifest (declared) order — not the highest version by
semantic-version precedence (main.rs:202,207 keep the last loop
iteration's commit with no ordering comparison). -/
theorem latest_targets_last_manifest_entry (cfg : Cfg) (st : St)
    (m : List SemVer) (vlast : SemVer) (hlast : m.getLast? = some vlast)
    (hok : (process_versions cfg st m).2 = Except.ok ()) :
    (process_versions cfg st m).1.locals BranchName.latest
      = (process_versions cfg st m).1.locals (BranchName.version vlast) := by
  have heq := pair_eta (process_versions cfg st m) _ hok
  unfold process_versions at heq ⊢
  exact loop_latest_targets_last cfg _ m vlast none none st _ hlast heq

/-- Witness for the amended C6: manifest `[1.1.0, 1.0.0]` on a fresh
store ends with `versions/latest` equal to the branch of 1.0.0, the last
manifest entry. -/
theorem latest_targets_last_manifest_entry_witness :
    (process_versions cfgNoRemote st_empty [v110, v100]).1.locals
        BranchName.latest
      = (process_versions cfgNoRemote st_empty [v110, v100]).1.locals
        (BranchName.version v100) :=
  latest_targets_last_manifest_entry cfgNoRemote st_empty [v110, v100] v100
    (by decide) rfl

/-- When every remaining manifest version is in the start-of-pass
snapshot and has a local branch, and no remote is configured, the loop
takes the skip path throughout: it succeeds and writes no commit. -/
theorem loop_all_existing (cfg : Cfg) (existing : SemVer → Bool)
    (hR : cfg.hasRemote = false) :
    ∀ (l : List SemVer) (latest : Option Nat) (prev : Option SemVer)
      (st : St),
      (∀ u ∈ l, existing u = true ∧
        (st.locals (BranchName.version u)).isSome = true) →
      (process_versions_loop cfg existing latest prev st l).2
          = Except.ok () ∧
      (process_versions_loop cfg existing latest prev st l).1.commits
          = st.commits ∧
      (process_versions_loop cfg existing latest prev st l).1.nextId
          = st.nextId := by
  intro l
  induction l with
  | nil =>
      intro latest prev st hAll
      cases latest with
      | none => exact ⟨rfl, rfl, rfl⟩
      | some cid =>
          simp only [process_versions_loop]
          rw [update_latest_no_remote cfg cid st hR]
          exact ⟨rfl, rfl, rfl⟩
  | cons v rest ih =>
      intro latest prev st hAll
      simp only [process_versions_loop]
      split
      · rename_i cid hskip
        exact ih (some cid) (some v) st
          (fun u hu => hAll u (List.mem_cons_of_mem v hu))
      · rename_i hskip
        obtain ⟨hx, hsome⟩ := hAll v (List.mem_cons_self v rest)
        rw [hx] at hskip
        simp at hskip
        rw [hskip] at hsome
        simp at hsome

/-- A successful loop preserves the presence of every version branch, and
establishes a branch for every manifest version it walked. -/
theorem loop_ok_isSome (cfg : Cfg) (existing : SemVer → Bool) :
    ∀ (l : List SemVer) (latest : Option Nat) (prev : Option SemVer)
      (st st' : St),
      process_versions_loop cfg existing latest prev st l
        = (st', Except.ok ()) →
      (∀ w, (st.locals (BranchName.version w)).isSome = true →
        (st'.locals (BranchName.version w)).isSome = true) ∧
      (∀ w ∈ l, (st'.locals (BranchName.version w)).isSome = true) := by
  intro l
  induction l with
  | nil =>
      intro latest prev st st' hlp
      cases latest with
      | none =>
          simp only [process_versions_loop] at hlp
          injection hlp with h1 h2
          subst h1
          exact ⟨fun w h => h, fun w hw => absurd hw (List.not_mem_nil w)⟩
      | some cid =>
          simp only [process_versions_loop] at hlp
          have hloc := update_latest_locals cfg cid st st' _ hlp
          refine ⟨fun w h => ?_, fun w hw => absurd hw (List.not_mem_nil w)⟩
          rw [hloc,
            setB_other _ _ _ _ (fun hh => BranchName.noConfusion hh)]
          exact h
  | cons v rest ih =>
      intro latest prev st st' hlp
      simp only [process_versions_loop] at hlp
      split at hlp
      · rename_i cid hskip
        obtain ⟨hpres, hest⟩ := ih (some cid) (some v) st st' hlp
        have hv : st.locals (BranchName.version v) = some cid := by
          by_cases hx : existing v = true
          · rw [hx] at hskip
            simpa using hskip
          · simp [hx] at hskip
        refine ⟨hpres, fun w hw => ?_⟩
        rcases List.mem_cons.mp hw with hw1 | hw1
        · subst hw1
          exact hpres w (by rw [hv]; rfl)
        · exact hest w hw1
      · rename_i hskip
        split at hlp
        · split at hlp
          · rename_i st1 e hu
            injection hlp with h1 h2
            exact absurd h2 (by simp)
          · rename_i st1 uu hu
            obtain ⟨rc, hrc, hloc1⟩ := ulb_ok_locals _ st st1 (by
              rw [hu])
            split at hlp
            · rename_i cid hcid
              obtain ⟨hpres, hest⟩ := ih (some cid) (some v) st1 st' hlp
              have hstep : ∀ w,
                  (st.locals (BranchName.version w)).isSome = true →
                  (st1.locals (BranchName.version w)).isSome = true := by
                intro w h
                by_cases hwv : w = v
                · subst hwv
                  rw [hcid]
                  rfl
                · rw [hloc1, setB_other _ _ _ _
                    (fun hh => hwv (BranchName.version.inj hh))]
                  exact h
              refine ⟨fun w h => hpres w (hstep w h), fun w hw => ?_⟩
              rcases List.mem_cons.mp hw with hw1 | hw1
              · subst hw1
                exact hpres w (by rw [hcid]; rfl)
              · exact hest w hw1
            · rename_i hnone
              split at hlp
              · rename_i st3 e hp3
                injection hlp with h1 h2
                exact absurd h2 (by simp)
              · rename_i st3 cid hp3
                obtain ⟨hpres, hest⟩ := ih (some cid) (some v) st3 st' hlp
                have hspec := pv_ok_spec cfg v prev st1 st3 cid hp3
                have hstep : ∀ w,
                    (st.locals (BranchName.version w)).isSome = true →
                    (st3.locals (BranchName.version w)).isSome = true := by
                  intro w h
                  by_cases hwv : w = v
                  · subst hwv
                    rw [hspec.2.2.1]
                    rfl
                  · rw [pv_locals_other cfg v prev st1 st3 _ hp3 _
                      (fun hh => hwv (BranchName.version.inj hh)),
                      hloc1, setB_other _ _ _ _
                      (fun hh => hwv (BranchName.version.inj hh))]
                    exact h
                refine ⟨fun w h => hpres w (hstep w h), fun w hw => ?_⟩
                rcases List.mem_cons.mp hw with hw1 | hw1
                · subst hw1
                  exact hpres w (by rw [hspec.2.2.1]; rfl)
                · exact hest w hw1
        · split at hlp
          · rename_i st3 e hp3
            injection hlp with h1 h2
            exact absurd h2 (by simp)
          · rename_i st3 cid hp3
            obtain ⟨hpres, hest⟩ := ih (some cid) (some v) st3 st' hlp
            have hspec := pv_ok_spec cfg v prev st st3 cid hp3
            have hstep : ∀ w,
                (st.locals (BranchName.version w)).isSome = true →
                (st3.locals (BranchName.version w)).isSome = true := by
              intro w h
              by_cases hwv : w = v
              · subst hwv
                rw [hspec.2.2.1]
                rfl
              · rw [pv_locals_other cfg v prev st st3 _ hp3 _
                  (fun hh => hwv (BranchName.version.inj hh))]
                exact h
            refine ⟨fun w h => hpres w (hstep w h), fun w hw => ?_⟩
            rcases List.mem_cons.mp hw with hw1 | hw1
            · subst hw1
              exact hpres w (by rw [hspec.2.2.1]; rfl)
            · exact hest w hw1

/-- Claim C5: processing the same manifest twice in succession with no
remote configured and no external change performs zero new commits on the
second run: every version is found in the existing local branch set
(main.rs:175-183) and skipped, so the commit store and the commit-id
counter are exactly those left by the first run, and the second run
succeeds. -/
theorem second_run_creates_no_commits (cfg : Cfg) (st : St)
    (m : List SemVer) (hR : cfg.hasRemote = false)
    (hok : (process_versions cfg st m).2 = Except.ok ()) :
    (process_versions cfg (process_versions cfg st m).1 m).2
        = Except.ok () ∧
    (process_versions cfg (process_versions cfg st m).1 m).1.commits
        = (process_versions cfg st m).1.commits ∧
    (process_versions cfg (process_versions cfg st m).1 m).1.nextId
        = (process_versions cfg st m).1.nextId := by
  have heq := pair_eta (process_versions cfg st m) _ hok
  rw [show process_versions cfg st m
    = process_versions_loop cfg
        (fun u => (st.locals (BranchName.version u)).isSome) none none st m
    from rfl] at heq
  have hiso := (loop_ok_isSome cfg _ m none none st
    (process_versions cfg st m).1 heq).2
  unfold process_versions
  exact loop_all_existing cfg _ hR m none none
    (process_versions cfg st m).1 (fun u hu => ⟨hiso u hu, hiso u hu⟩)

/-- Witness for C5: running manifest `[1.0.0, 1.1.0]` on a fresh store
(first run builds both versions), the second run succeeds with the commit
store and id counter unchanged. -/
theorem second_run_creates_no_commits_witness :
    (process_versions cfgNoRemote
        (process_versions cfgNoRemote st_empty [v100, v110]).1
        [v100, v110]).2 = Except.ok () ∧
    (process_versions cfgNoRemote
        (process_versions cfgNoRemote st_empty [v100, v110]).1
        [v100, v110]).1.commits
      = (process_versions cfgNoRemote st_empty [v100, v110]).1.commits ∧
    (process_versions cfgNoRemote
        (process_versions cfgNoRemote st_empty [v100, v110]).1
        [v100, v110]).1.nextId
      = (process_versions cfgNoRemote st_empty [v100, v110]).1.nextId :=
  second_run_creates_no_commits cfgNoRemote st_empty [v100, v110] rfl rfl

/-- A manifest loop that aborts with a non-push error splits the manifest
at a failing entry `vk`: every version branch outside the successfully
walked prefix — the failing version's own branch included — is left
exactly as it was, `versions/latest` is untouched, the downloader was
only ever invoked for prefix versions or `vk`, and the error is a fetch
or transform failure of `vk`, a missing credential, or a missing parent
branch. -/
theorem loop_err_spec (cfg : Cfg) (existing : SemVer → Bool) :
    ∀ (l : List SemVer) (latest : Option Nat) (prev : Option SemVer)
      (st st' : St) (e : MbssError),
      process_versions_loop cfg existing latest prev st l
        = (st', Except.error e) →
      (∀ b, e ≠ MbssError.pushFailed b) →
      ∃ pre vk post, l = pre ++ vk :: post ∧
        (∀ w, w ∉ pre →
          (existing w = true ∨ st.locals (BranchName.version w) = none) →
          st'.locals (BranchName.version w)
            = st.locals (BranchName.version w)) ∧
        st'.locals BranchName.latest = st.locals BranchName.latest ∧
        (∀ u, u ∈ st'.fetchLog → u ∈ st.fetchLog ∨ u ∈ pre ∨ u = vk) ∧
        (e = MbssError.fetchFailed vk ∨ e = MbssError.transformFailed vk ∨
          (∃ c, e = MbssError.envMissing c) ∨
          (∃ b, e = MbssError.branchNotFound b)) := by
  intro l
  induction l with
  | nil =>
      intro latest prev st st' e hlp hnp
      cases latest with
      | none =>
          simp only [process_versions_loop] at hlp
          injection hlp with h1 h2
          exact Except.noConfusion h2
      | some cid =>
          simp only [process_versions_loop] at hlp
          exact absurd (update_latest_err cfg cid st st' e hlp) (hnp _)
  | cons v rest ih =>
      intro latest prev st st' e hlp hnp
      simp only [process_versions_loop] at hlp
      split at hlp
      · rename_i cid hskip
        obtain ⟨pre, vk, post, hleq, ha, hlat, hfetch, hshape⟩ :=
          ih (some cid) (some v) st st' e hlp hnp
        refine ⟨v :: pre, vk, post, by rw [hleq, List.cons_append], ?_, hlat, ?_, hshape⟩
        · intro w hw hD
          exact ha w (fun hmem => hw (List.mem_cons_of_mem v hmem)) hD
        · intro u hu
          rcases hfetch u hu with h | h | h
          · exact Or.inl h
          · exact Or.inr (Or.inl (List.mem_cons_of_mem v h))
          · exact Or.inr (Or.inr h)
      · rename_i hskip
        have hnol : existing v = true →
            st.locals (BranchName.version v) = none := by
          intro hx
          rw [hx] at hskip
          simpa using hskip
        split at hlp
        · split at hlp
          · rename_i st1 e1 hu
            injection hlp with h1 h2
            have he : e1 = e := Except.error.inj h2
            subst he
            subst h1
            obtain ⟨hshape1, hstate1⟩ := ulb_err_shape _ st st1 e1 hu
            refine ⟨[], v, rest, rfl, ?_, ?_, ?_, ?_⟩
            · intro w hw hD
              rw [hstate1]
            · rw [hstate1]
            · intro u hu1
              rw [hstate1] at hu1
              exact Or.inl hu1
            · exact Or.inr (Or.inr (Or.inr ⟨_, hshape1⟩))
          · rename_i st1 uu hu
            obtain ⟨rc, hrc, hloc1⟩ := ulb_ok_locals _ st st1 hu
            have hlat1 : st1.locals BranchName.latest
                = st.locals BranchName.latest := by
              rw [hloc1, setB_other _ _ _ _
                (fun hh => BranchName.noConfusion hh)]
            have hfl1 : st1.fetchLog = st.fetchLog := by
              have h := (ulb_frame (BranchName.version v) st).2.2.2.2.1
              rw [hu] at h
              exact h
            split at hlp
            · rename_i cid hcid
              obtain ⟨pre, vk, post, hleq, ha, hlat, hfetch, hshape⟩ :=
                ih (some cid) (some v) st1 st' e hlp hnp
              refine ⟨v :: pre, vk, post, by rw [hleq, List.cons_append], ?_, ?_, ?_, hshape⟩
              · intro w hw hD
                have hwv : w ≠ v :=
                  fun hh => hw (hh ▸ List.mem_cons_self v pre)
                have hw1 : st1.locals (BranchName.version w)
                    = st.locals (BranchName.version w) := by
                  rw [hloc1, setB_other _ _ _ _
                    (fun hh => hwv (BranchName.version.inj hh))]
                have hD1 : existing w = true ∨
                    st1.locals (BranchName.version w) = none := by
                  rcases hD with h | h
                  · exact Or.inl h
                  · exact Or.inr (by rw [hw1]; exact h)
                exact (ha w (fun hmem => hw (List.mem_cons_of_mem v hmem))
                  hD1).trans hw1
              · exact hlat.trans hlat1
              · intro u hu1
                rcases hfetch u hu1 with h | h | h
                · rw [hfl1] at h
                  exact Or.inl h
                · exact Or.inr (Or.inl (List.mem_cons_of_mem v h))
                · exact Or.inr (Or.inr h)
            · rename_i hnone
              split at hlp
              · rename_i st3 e3 hp3
                injection hlp with h1 h2
                have he : e3 = e := Except.error.inj h2
                subst he
                subst h1
                have herr := pv_err_spec cfg v prev st1 st3 e3 hp3 hnp
                refine ⟨[], v, rest, rfl, ?_, ?_, ?_, ?_⟩
                · intro w hw hD
                  by_cases hwv : w = v
                  · subst hwv
                    rw [herr.2.2]
                    rcases hD with hx | hx
                    · exact (hnol hx).symm
                    · exact hx.symm
                  · rw [pv_locals_other cfg v prev st1 st3 _ hp3 _
                      (fun hh => hwv (BranchName.version.inj hh)),
                      hloc1, setB_other _ _ _ _
                      (fun hh => hwv (BranchName.version.inj hh))]
                · rw [pv_locals_other cfg v prev st1 st3 _ hp3 _
                    (fun hh => BranchName.noConfusion hh), hlat1]
                · intro u hu1
                  rcases pv_fetchLog cfg v prev st1 st3 _ hp3 u hu1 with h | h
                  · rw [hfl1] at h
                    exact Or.inl h
                  · exact Or.inr (Or.inr h)
                · rcases pv_err_shape cfg v prev st1 st3 e3 hp3 with
                    h | h | h | h | h | h
                  · exact Or.inr (Or.inr (Or.inl ⟨_, h⟩))
                  · exact Or.inr (Or.inr (Or.inl ⟨_, h⟩))
                  · exact Or.inl h
                  · exact Or.inr (Or.inl h)
                  · exact Or.inr (Or.inr (Or.inr h))
                  · exact absurd h (hnp _)
              · rename_i st3 cid hp3
                obtain ⟨pre, vk, post, hleq, ha, hlat, hfetch, hshape⟩ :=
                  ih (some cid) (some v) st3 st' e hlp hnp
                refine ⟨v :: pre, vk, post, by rw [hleq, List.cons_append], ?_, ?_, ?_, hshape⟩
                · intro w hw hD
                  have hwv : w ≠ v :=
                    fun hh => hw (hh ▸ List.mem_cons_self v pre)
                  have hw1 : st3.locals (BranchName.version w)
                      = st.locals (BranchName.version w) := by
                    rw [pv_locals_other cfg v prev st1 st3 _ hp3 _
                      (fun hh => hwv (BranchName.version.inj hh)),
                      hloc1, setB_other _ _ _ _
                      (fun hh => hwv (BranchName.version.inj hh))]
                  have hD1 : existing w = true ∨
                      st3.locals (BranchName.version w) = none := by
                    rcases hD with h | h
                    · exact Or.inl h
                    · exact Or.inr (by rw [hw1]; exact h)
                  exact (ha w (fun hmem => hw (List.mem_cons_of_mem v hmem))
                    hD1).trans hw1
                · have hlat3 : st3.locals BranchName.latest
                      = st.locals BranchName.latest := by
                    rw [pv_locals_other cfg v prev st1 st3 _ hp3 _
                      (fun hh => BranchName.noConfusion hh), hlat1]
                  exact hlat.trans hlat3
                · intro u hu1
                  rcases hfetch u hu1 with h | h | h
                  · rcases pv_fetchLog cfg v prev st1 st3 _ hp3 u h with
                      h1 | h1
                    · rw [hfl1] at h1
                      exact Or.inl h1
                    · exact Or.inr (Or.inl (h1 ▸ List.mem_cons_self v pre))
                  · exact Or.inr (Or.inl (List.mem_cons_of_mem v h))
                  · exact Or.inr (Or.inr h)
        · split at hlp
          · rename_i st3 e3 hp3
            injection hlp with h1 h2
            have he : e3 = e := Except.error.inj h2
            subst he
            subst h1
            have herr := pv_err_spec cfg v prev st st3 e3 hp3 hnp
            refine ⟨[], v, rest, rfl, ?_, ?_, ?_, ?_⟩
            · intro w hw hD
              by_cases hwv : w = v
              · subst hwv
                rw [herr.2.2]
                rcases hD with hx | hx
                · exact (hnol hx).symm
                · exact hx.symm
              · exact pv_locals_other cfg v prev st st3 _ hp3 _
                  (fun hh => hwv (BranchName.version.inj hh))
            · exact pv_locals_other cfg v prev st st3 _ hp3 _
                (fun hh => BranchName.noConfusion hh)
            · intro u hu1
              rcases pv_fetchLog cfg v prev st st3 _ hp3 u hu1 with h | h
              · exact Or.inl h
              · exact Or.inr (Or.inr h)
            · rcases pv_err_shape cfg v prev st st3 e3 hp3 with
                h | h | h | h | h | h
              · exact Or.inr (Or.inr (Or.inl ⟨_, h⟩))
              · exact Or.inr (Or.inr (Or.inl ⟨_, h⟩))
              · exact Or.inl h
              · exact Or.inr (Or.inl h)
              · exact Or.inr (Or.inr (Or.inr h))
              · exact absurd h (hnp _)
          · rename_i st3 cid hp3
            obtain ⟨pre, vk, post, hleq, ha, hlat, hfetch, hshape⟩ :=
              ih (some cid) (some v) st3 st' e hlp hnp
            refine ⟨v :: pre, vk, post, by rw [hleq, List.cons_append], ?_, ?_, ?_, hshape⟩
            · intro w hw hD
              have hwv : w ≠ v :=
                fun hh => hw (hh ▸ List.mem_cons_self v pre)
              have hw1 : st3.locals (BranchName.version w)
                  = st.locals (BranchName.version w) :=
                pv_locals_other cfg v prev st st3 _ hp3 _
                  (fun hh => hwv (BranchName.version.inj hh))
              have hD1 : existing w = true ∨
                  st3.locals (BranchName.version w) = none := by
                rcases hD with h | h
                · exact Or.inl h
                · exact Or.inr (by rw [hw1]; exact h)
              exact (ha w (fun hmem => hw (List.mem_cons_of_mem v hmem))
                hD1).trans hw1
            · exact hlat.trans (pv_locals_other cfg v prev st st3 _ hp3 _
                (fun hh => BranchName.noConfusion hh))
            · intro u hu1
              rcases hfetch u hu1 with h | h | h
              · rcases pv_fetchLog cfg v prev st st3 _ hp3 u h with h1 | h1
                · exact Or.inl h1
                · exact Or.inr (Or.inl (h1 ▸ List.mem_cons_self v pre))
              · exact Or.inr (Or.inl (List.mem_cons_of_mem v h))
              · exact Or.inr (Or.inr h)

/-- Claim C8: for an empty manifest the reconciliation pass creates no
commits and neither creates nor moves `versions/latest`: `process_versions`
returns the state completely unchanged, with success.  (main.rs:172 the
loop body never runs; main.rs:207 `latest_commit_id` is still `None`, so
`update_latest_branch` is not called.) -/
theorem empty_manifest_pass_is_identity (cfg : Cfg) (st : St) :
    process_versions cfg st [] = (st, Except.ok ()) := rfl

/-- Claim C9: whenever `update_local_branch` succeeds for a branch that
exists both locally and on the remote, the local branch afterwards targets
exactly the remote commit, unconditionally: no ancestry or fast-forward
check is made (main.rs:435-438 `set_target` on the raw reference), so any
previous local target `c` — divergent or not — is silently replaced. -/
theorem update_local_branch_unconditional_retarget (st : St) (b : BranchName)
    (rc c : Nat) (hr : st.remote b = some rc) (_hl : st.locals b = some c) :
    (update_local_branch b st).2 = Except.ok () ∧
    (update_local_branch b st).1.locals b = some rc := by
  unfold update_local_branch
  rw [hr]
  exact ⟨rfl, by simp [setB]⟩

/-- Witness for C9: with local `version/1.0.0` at commit 5 and remote at
commit 9, `update_local_branch` succeeds and the local branch ends at 9. -/
theorem update_local_branch_unconditional_retarget_witness :
    (update_local_branch (BranchName.version v100) stDiverged).2
        = Except.ok () ∧
    (update_local_branch (BranchName.version v100) stDiverged).1.locals
        (BranchName.version v100) = some 9 :=
  update_local_branch_unconditional_retarget stDiverged
    (BranchName.version v100) 9 5 (by decide) (by decide)

/-- Claim C10: if the download directory for a version already exists,
`download_version` returns that path immediately (utils.rs:243-246):
the state — in particular the downloader invocation log — is untouched,
and no credential is consulted (the `cfg` is arbitrary, including one
with both credentials unset). -/
theorem download_version_cache_short_circuit (cfg : Cfg) (v : SemVer)
    (st : St) (h : v ∈ st.downloads) :
    download_version cfg v st = (st, Except.ok (downloadPath v)) := by
  unfold download_version
  rw [if_pos h]

/-- Witness for C10: with 1.0.0 cached and no credentials configured at
all, `download_version` still returns the cached path with the state
unchanged. -/
theorem download_version_cache_short_circuit_witness :
    download_version cfgNoCreds v100 stCached
      = (stCached, Except.ok (downloadPath v100)) :=
  download_version_cache_short_circuit cfgNoCreds v100 stCached (by decide)

/-- Counterexample to claim C1 as stated: with a remote configured whose
push fails, `process_version` does NOT return the new commit id — the
push error propagates through the `?` at main.rs:302/404 and aborts the
build.  Concrete input: fresh state, version 1.0.0, all collaborators
succeeding, push failing. -/
theorem push_failure_claim_counterexample :
    (process_version cfgPushFail v100 none st_empty).2
      = Except.error (MbssError.pushFailed (BranchName.version v100)) := rfl

/-- Counterexample to claim C2 as stated: manifest `[1.0.0, 1.1.0]` with a
stale local `version/1.0.0` (commit 5) and a newer remote commit 9.  The
pass completes, but the local branch still targets the stale commit 5 —
it is NOT fast-forwarded to the remote commit: main.rs:175-183 takes the
local-exists path and `continue`s without ever consulting the remote. -/
theorem stale_local_fast_forward_counterexample :
    (process_versions cfgRemoteOk stStale [v100, v110]).2 = Except.ok () ∧
    (process_versions cfgRemoteOk stStale [v100, v110]).1.locals
        (BranchName.version v100) = some 5 ∧
    stStale.remote (BranchName.version v100) = some 9 :=
  ⟨rfl, by decide, by decide⟩

/-- Counterexample to claim C6 as stated: manifest `[1.1.0, 1.0.0]` (not
in semver order, which the spec explicitly allows).  After a successful
run, `versions/latest` targets commit 1, the commit of 1.0.0 — the LAST
version in manifest order — while the highest version by semantic-version
precedence that was successfully processed is 1.1.0 with commit 0
(main.rs:202 records the last loop iteration, with no ordering
comparison). -/
theorem latest_branch_claim_counterexample :
    (process_versions cfgNoRemote st_empty [v110, v100]).2 = Except.ok () ∧
    semLt v100 v110 = true ∧
    (process_versions cfgNoRemote st_empty [v110, v100]).1.locals
        BranchName.latest = some 1 ∧
    (process_versions cfgNoRemote st_empty [v110, v100]).1.locals
        (BranchName.version v110) = some 0 ∧
    (process_versions cfgNoRemote st_empty [v110, v100]).1.locals
        BranchName.latest ≠
      (process_versions cfgNoRemote st_empty [v110, v100]).1.locals
        (BranchName.version v110) :=
  ⟨rfl, by decide, by decide, by decide, by decide⟩

/-- Counterexample to claim C7 as stated: with STEAM_USERNAME and
STEAM_PASSWORD unset and manifest `[1.0.0, 1.1.0]` where 1.0.0 is cached
on disk, the run DOES mutate the store before the configuration error
surfaces: 1.0.0 is committed (commit 0) and its branch created, and only
then does 1.1.0's download hit the missing-credential check
(utils.rs:251 is reached lazily, per version, not at startup). -/
theorem config_error_claim_counterexample :
    (process_versions cfgNoCreds stCreds [v100, v110]).2
      = Except.error (MbssError.envMissing ConfigVar.steamUsername) ∧
    (process_versions cfgNoCreds stCreds [v100, v110]).1.nextId = 1 ∧
    (process_versions cfgNoCreds stCreds [v100, v110]).1.locals
        (BranchName.version v100) = some 0 :=
  ⟨rfl, by decide, by decide⟩

/-- Witness for the amended C1: with a failing push, building 1.0.0 on a
fresh store returns the push error, yet commit 0 exists and
`version/1.0.0` targets it. -/
theorem push_failure_aborts_build_witness :
    (process_version cfgPushFail v100 none st_empty).1.locals
        (BranchName.version v100) = some 0 ∧
    (process_version cfgPushFail v100 none st_empty).1.nextId = 1 ∧
    ∃ ps, findC (process_version cfgPushFail v100 none st_empty).1.commits 0
        = some ⟨ps, v100⟩ :=
  ⟨(push_failure_aborts_build cfgPushFail v100 none st_empty _ _ rfl).2.1,
   (push_failure_aborts_build cfgPushFail v100 none st_empty _ _ rfl).2.2.1,
   (push_failure_aborts_build cfgPushFail v100 none st_empty _ _ rfl).2.2.2⟩

/-- Claim C3: a commit built with no previous version has zero parents;
a commit built with previous version `p` has exactly one parent, and that
parent is the commit targeted by `version/<p>` at build time
(main.rs:278-293).  In `process_versions`, `prev` is exactly the version
processed immediately before in manifest order (main.rs:180,195,203), and
`prev = none` exactly for the first version of the pass. -/
theorem commit_parent_linkage (cfg : Cfg) (v : SemVer)
    (prev : Option SemVer) (st st' : St) (cid : Nat)
    (hpv : process_version cfg v prev st = (st', Except.ok cid)) :
    (prev = none → findC st'.commits cid = some ⟨[], v⟩) ∧
    ∀ p, prev = some p →
      ∃ pc, st.locals (BranchName.version p) = some pc ∧
        findC st'.commits cid = some ⟨[pc], v⟩ := by
  obtain ⟨hcid, -, -, ps, hfind, hnone, hsome⟩ :=
    pv_ok_spec cfg v prev st st' cid hpv
  subst hcid
  constructor
  · intro hp
    rw [hnone hp] at hfind
    exact hfind
  · intro p hp
    obtain ⟨pc, hpc, hps⟩ := hsome p hp
    refine ⟨pc, hpc, ?_⟩
    rw [← hps]
    exact hfind

/-- Witness for C3: on a fresh store 1.0.0 builds commit 0 with no
parents; on a store whose `version/1.0.0` targets commit 5, building
1.1.0 with predecessor 1.0.0 yields commit 6 with the single parent 5. -/
theorem commit_parent_linkage_witness :
    findC ((process_version cfgNoRemote v100 none st_empty).1).commits 0
        = some ⟨[], v100⟩ ∧
    ∃ pc, stWithBase.locals (BranchName.version v100) = some pc ∧
      findC ((process_version cfgNoRemote v110 (some v100)
        stWithBase).1).commits 6 = some ⟨[pc], v110⟩ :=
  ⟨(commit_parent_linkage cfgNoRemote v100 none st_empty _ 0 rfl).1 rfl,
   (commit_parent_linkage cfgNoRemote v110 (some v100) stWithBase _ 6
     rfl).2 v100 rfl⟩

/-- Claim C4: a pass that aborts with a build error (fetch, transform,
credential, or missing-parent-branch error — push failures excluded by
hypothesis, as the claim addresses build failures) stops at a failing
manifest entry `vk`: the branch of every version outside the walked
prefix (in particular every version occurring only after `vk`, and `vk`
itself) is left unchanged, `versions/latest` is not moved, and no version
outside the prefix and `vk` was ever fetched — the loop `?` at
main.rs:201 prevents any later iteration. -/
theorem build_failure_aborts_pass (cfg : Cfg) (st : St) (m : List SemVer)
    (e : MbssError)
    (h : (process_versions cfg st m).2 = Except.error e)
    (hnp : ∀ b, e ≠ MbssError.pushFailed b) :
    ∃ pre vk post, m = pre ++ vk :: post ∧
      (∀ w, w ∉ pre →
        (process_versions cfg st m).1.locals (BranchName.version w)
          = st.locals (BranchName.version w)) ∧
      (process_versions cfg st m).1.locals BranchName.latest
        = st.locals BranchName.latest ∧
      (∀ u, u ∈ (process_versions cfg st m).1.fetchLog →
        u ∈ st.fetchLog ∨ u ∈ pre ∨ u = vk) ∧
      (e = MbssError.fetchFailed vk ∨ e = MbssError.transformFailed vk ∨
        (∃ c, e = MbssError.envMissing c) ∨
        (∃ b, e = MbssError.branchNotFound b)) := by
  have heq : process_versions cfg st m
      = ((process_versions cfg st m).1, Except.error e) := by
    rw [← h]
  unfold process_versions at heq
  obtain ⟨pre, vk, post, hleq, ha, hlat, hfetch, hshape⟩ :=
    loop_err_spec cfg _ m none none st (process_versions cfg st m).1 e heq
      hnp
  refine ⟨pre, vk, post, hleq, ?_, hlat, hfetch, hshape⟩
  intro w hw
  refine ha w hw ?_
  cases hx : st.locals (BranchName.version w) with
  | none => exact Or.inr rfl
  | some c => exact Or.inl rfl

/-- Witness for C4: manifest `[1.0.0, 2.0.0, 3.0.0]` on a fresh store
with the downloader failing for 2.0.0 aborts with that fetch error, and
the theorem's conclusions hold at this input. -/
theorem build_failure_aborts_pass_witness :
    (process_versions cfgFetchFailAt2 st_empty [v100, v200, v300]).2
        = Except.error (MbssError.fetchFailed v200) ∧
    ∃ pre vk post, [v100, v200, v300] = pre ++ vk :: post ∧
      (∀ w, w ∉ pre →
        (process_versions cfgFetchFailAt2 st_empty
          [v100, v200, v300]).1.locals (BranchName.version w)
          = st_empty.locals (BranchName.version w)) ∧
      (process_versions cfgFetchFailAt2 st_empty
          [v100, v200, v300]).1.locals BranchName.latest
        = st_empty.locals BranchName.latest ∧
      (∀ u, u ∈ (process_versions cfgFetchFailAt2 st_empty
          [v100, v200, v300]).1.fetchLog →
        u ∈ st_empty.fetchLog ∨ u ∈ pre ∨ u = vk) ∧
      (MbssError.fetchFailed v200 = MbssError.fetchFailed vk ∨
        MbssError.fetchFailed v200 = MbssError.transformFailed vk ∨
        (∃ c, MbssError.fetchFailed v200 = MbssError.envMissing c) ∨
        (∃ b, MbssError.fetchFailed v200
          = MbssError.branchNotFound b)) :=
  ⟨rfl, build_failure_aborts_pass cfgFetchFailAt2 st_empty
    [v100, v200, v300] (MbssError.fetchFailed v200) rfl
    (fun _ hb => MbssError.noConfusion hb)⟩

/-- Claim C7, amended: the missing-credential check is lazy — it runs
inside `download_version` when a version actually needs downloading
(utils.rs:251), not at startup.  When the version being built has no
cached download and no local branch, the build aborts with the
configuration error and the state is completely unmutated; but store
mutations for earlier, cache-served versions of the same pass may already
have happened (see the counterexample). -/
theorem missing_credential_aborts_build_unmutated (cfg : Cfg) (v : SemVer)
    (prev : Option SemVer) (st : St)
    (hb : st.locals (BranchName.version v) = none)
    (hc : cfg.steamUsername = none)
    (hd : v ∉ st.downloads) :
    process_version cfg v prev st
      = (st, Except.error (MbssError.envMissing ConfigVar.steamUsername))
    := by
  unfold process_version
  rw [dbie_of_none v st hb]
  unfold download_version
  rw [if_neg hd, hc]

/-- Witness for the amended C7: building 1.1.0 with no credentials, no
cache entry, and no local branch returns the configuration error with the
state untouched. -/
theorem missing_credential_aborts_build_unmutated_witness :
    process_version cfgNoCreds v110 none st_empty
      = (st_empty,
         Except.error (MbssError.envMissing ConfigVar.steamUsername)) :=
  missing_credential_aborts_build_unmutated cfgNoCreds v110 none st_empty
    rfl rfl (by decide)

end MBSS
